import Mathlib

/-!
Verification of the chunk-size estimation algorithm of `multiqr`
(`src/main.rs`, function `estimate_chunk`).

The estimator probes prefixes of the input with an external QR-encoding
primitive (`qr_code::QrCode::new`).  We embed `estimate_chunk` as a Lean
function parameterised by that probe, with the search loop written as a
fuel-indexed recursion (`none` = fuel exhausted, i.e. the loop has not yet
finished within the given number of iterations).  Rust panics are modelled
by an explicit `fatal` outcome carrying the panic message.
-/

namespace Multiqr

/-- The version type of the external `qr_code` crate: a normal QR version
(1..40) or a micro-QR version, both carried as `i16` in Rust. -/
inductive QrVersion
  | Normal (w : Int)
  | Micro (w : Int)
deriving DecidableEq

/-- Errors of the external probe, as distinguished by `estimate_chunk`:
`QrError::DataTooLong` (capacity exceeded) versus every other error. -/
inductive QrErr
  | DataTooLong
  | OtherErr
deriving DecidableEq

instance {α β : Type} [DecidableEq α] [DecidableEq β] :
    DecidableEq (Except α β) := fun a b =>
  match a, b with
  | .ok x, .ok y =>
    if h : x = y then .isTrue (by rw [h])
    else .isFalse (by intro hh; cases hh; exact h rfl)
  | .error x, .error y =>
    if h : x = y then .isTrue (by rw [h])
    else .isFalse (by intro hh; cases hh; exact h rfl)
  | .ok _, .error _ => .isFalse (by intro h; cases h)
  | .error _, .ok _ => .isFalse (by intro h; cases h)

/-- The external encode probe: from a byte slice, either a QR version or an
error.  (`qr_code::QrCode::new` followed by `.version()` in the source.) -/
def Probe : Type := List Nat → Except QrErr QrVersion

/-- Outcome of the search loop of `estimate_chunk`:
`retLen` models the two `return Ok(content.len())` statements inside the
loop, `brk total` models `break total`, and `fatal` models the two
`panic!` branches. -/
inductive LoopRes
  | retLen
  | brk (total : Nat)
  | fatal (msg : String)
deriving DecidableEq

/-- The search loop of `estimate_chunk` (src/main.rs lines 174..208),
fuel-indexed.  Branches in source order: on probe success, first
`width < desired && total >= content.len()` returns, then
`width == desired` breaks, then `total` is halved or grown by 3/2 and the
loop returns early when the adjusted `total` reaches `content.len()`;
`DataTooLong` halves `total` and retries; any other probe error panics. -/
def loopGo (probe : Probe) (content : List Nat) (desired : Int) :
    Nat → Nat → Option LoopRes
  | 0, _ => none
  | fuel+1, total =>
    match probe (content.take total) with
    | .ok (.Normal w) =>
      if w < desired ∧ content.length ≤ total then some .retLen
      else if w = desired then some (.brk total)
      else
        let total' := if desired < w then total / 2 else total * 3 / 2
        if content.length ≤ total' then some .retLen
        else loopGo probe content desired fuel total'
    | .ok (.Micro _) => some (.fatal "micro")
    | .error .DataTooLong => loopGo probe content desired fuel (total / 2)
    | .error .OtherErr => some (.fatal "should not happen")

/-- Result of `estimate_chunk`: the Rust `Result<usize, &'static str>`
extended with a `fatal` outcome for panics (including the division-by-zero
panic Rust would raise in the rebalance step if the loop broke with
`total = 0`). -/
inductive EstOut
  | ok (n : Nat)
  | err (msg : String)
  | fatal (msg : String)
deriving DecidableEq

/-- `estimate_chunk` (src/main.rs lines 164..215): validates the version
and non-emptiness, runs the search loop from `total = content.len()`, and
rebalances the broken-out chunk size:
`pieces = len / chunk_size + 1`, `new_chunk_size = len / pieces + 1`. -/
def estimate_chunk (probe : Probe) (content : List Nat)
    (desired_version : Nat) (fuel : Nat) : Option EstOut :=
  if desired_version = 0 ∨ 40 < desired_version then
    some (.err "Invalid version")
  else if content.length = 0 then
    some (.err "Invalid empty content")
  else
    match loopGo probe content (desired_version : Int) fuel content.length with
    | none => none
    | some .retLen => some (.ok content.length)
    | some (.brk chunk_size) =>
      if chunk_size = 0 then some (.fatal "attempt to divide by zero")
      else some (.ok (content.length / (content.length / chunk_size + 1) + 1))
    | some (.fatal m) => some (.fatal m)

/-- The list of `total` values at which the search loop probes the slice
`content[..total]`, in order; mirrors `loopGo` branch for branch. -/
def loopProbes (probe : Probe) (content : List Nat) (desired : Int) :
    Nat → Nat → List Nat
  | 0, _ => []
  | fuel+1, total =>
    total ::
      (match probe (content.take total) with
      | .ok (.Normal w) =>
        if w < desired ∧ content.length ≤ total then []
        else if w = desired then []
        else
          let total' := if desired < w then total / 2 else total * 3 / 2
          if content.length ≤ total' then []
          else loopProbes probe content desired fuel total'
      | .ok (.Micro _) => []
      | .error .DataTooLong => loopProbes probe content desired fuel (total / 2)
      | .error .OtherErr => [])

/-- Modelled from the spec: the external QR encode primitive
(`qr_code::QrCode::new`, not part of this repository) "either returns the
resulting code's version/size class, or fails with a capacity-exceeded
error", the version being a monotonic capacity indicator in [1,40].
`capM v` is the byte-mode character capacity of QR version `v` at
error-correction level M (the default of `QrCode::new`), from the QR
standard; `capM 0 = 0`. -/
def capM (v : Nat) : Nat :=
  if v ≤ 20 then
    if v ≤ 10 then
      if v ≤ 5 then
        if v ≤ 2 then (if v ≤ 1 then (if v = 0 then 0 else 14) else 26)
        else (if v ≤ 3 then 42 else if v = 4 then 62 else 84)
      else
        if v ≤ 7 then (if v = 6 then 106 else 122)
        else (if v ≤ 8 then 152 else if v = 9 then 180 else 213)
    else
      if v ≤ 15 then
        if v ≤ 12 then (if v = 11 then 251 else 287)
        else (if v ≤ 13 then 331 else if v = 14 then 362 else 412)
      else
        if v ≤ 17 then (if v = 16 then 450 else 504)
        else (if v ≤ 18 then 560 else if v = 19 then 624 else 666)
  else
    if v ≤ 30 then
      if v ≤ 25 then
        if v ≤ 22 then (if v = 21 then 711 else 779)
        else (if v ≤ 23 then 857 else if v = 24 then 911 else 997)
      else
        if v ≤ 27 then (if v = 26 then 1059 else 1125)
        else (if v ≤ 28 then 1190 else if v = 29 then 1264 else 1370)
    else
      if v ≤ 35 then
        if v ≤ 32 then (if v = 31 then 1452 else 1538)
        else (if v ≤ 33 then 1628 else if v = 34 then 1722 else 1809)
      else
        if v ≤ 37 then (if v = 36 then 1911 else 1989)
        else (if v ≤ 38 then 2099 else if v = 39 then 2213 else 2331)

/-- First version `v`, trying `k` candidates upward from `v`, whose
capacity holds `n` bytes. -/
def findVer (n : Nat) : Nat → Nat → Option Nat
  | _, 0 => none
  | v, k+1 => if n ≤ capM v then some v else findVer n (v+1) k

/-- Modelled from the spec: the external probe as the smallest-fitting
version of the byte-mode capacity table `capM` (as the `qr_code` library
chooses the smallest version that fits the data), failing with
the capacity-exceeded signal when even version 40 cannot hold it. -/
def tableProbe : Probe := fun bytes =>
  match findVer bytes.length 1 40 with
  | some v => .ok (.Normal (v : Int))
  | none => .error .DataTooLong

/-- Abstract reachability core of the search loop for the table probe:
with the target version's capacity window `[lo, hi]`, a prefix length
above the window is halved (this also covers the capacity-exceeded
region above `capM 40`), one below it is grown to `t * 3 / 2`, and one
inside it stops the search.  `reach` decides whether the window is hit
within `fuel` steps. -/
def reach (lo hi : Nat) : Nat → Nat → Bool
  | 0, _ => false
  | fuel+1, t =>
    if hi < t then reach lo hi fuel (t / 2)
    else if t < lo then reach lo hi fuel (t * 3 / 2)
    else true

/-- `reach lo hi 100` holds for the `k` consecutive values starting at
`a`. -/
def checkFrom (lo hi : Nat) : Nat → Nat → Bool
  | _, 0 => true
  | a, k+1 => reach lo hi 100 a && checkFrom lo hi (a+1) k

/-- All states in the recurrent zone of version `d`'s window — from the
lowest halving landing `(capM d + 1) / 2` up to the highest halved
overshoot `capM (d-1) * 3 / 2 / 2` — reach the window within 100
steps. -/
def subwinOK (d : Nat) : Bool :=
  checkFrom (capM (d-1) + 1) (capM d) ((capM d + 1) / 2)
    (capM (d-1) * 3 / 2 / 2 + 1 - (capM d + 1) / 2)

/-- The search dynamics eventually hit the window `[lo, hi]` from `t`. -/
def Reaches (lo hi t : Nat) : Prop := ∃ fuel, reach lo hi fuel t = true

/-- A probe behaving as the spec requires of the external primitive:
every probe either succeeds with a normal version or fails with the
capacity-exceeded signal. -/
def WellBehaved (probe : Probe) : Prop :=
  ∀ bs, (∃ w, probe bs = .ok (.Normal w)) ∨ probe bs = .error .DataTooLong

/-! ## Structural lemmas about the search loop -/

/-- One unfolding of the loop when the probe succeeds with a normal
version. -/
theorem loopGo_eq_normal {probe : Probe} {content : List Nat}
    {desired w : Int} {fuel total : Nat}
    (hp : probe (content.take total) = .ok (.Normal w)) :
    loopGo probe content desired (fuel+1) total =
      if w < desired ∧ content.length ≤ total then some .retLen
      else if w = desired then some (.brk total)
      else if content.length ≤ (if desired < w then total / 2 else total * 3 / 2)
        then some .retLen
        else loopGo probe content desired fuel
          (if desired < w then total / 2 else total * 3 / 2) := by
  rw [loopGo, hp]

/-- One unfolding of the loop when the probe reports a micro version. -/
theorem loopGo_eq_micro {probe : Probe} {content : List Nat}
    {desired : Int} {x : Int} {fuel total : Nat}
    (hp : probe (content.take total) = .ok (.Micro x)) :
    loopGo probe content desired (fuel+1) total = some (.fatal "micro") := by
  rw [loopGo, hp]

/-- One unfolding of the loop when the probe fails with capacity
exceeded: halve `total` and retry. -/
theorem loopGo_eq_toolong {probe : Probe} {content : List Nat}
    {desired : Int} {fuel total : Nat}
    (hp : probe (content.take total) = .error .DataTooLong) :
    loopGo probe content desired (fuel+1) total =
      loopGo probe content desired fuel (total / 2) := by
  rw [loopGo, hp]

/-- One unfolding of the loop when the probe fails with any other
error. -/
theorem loopGo_eq_other {probe : Probe} {content : List Nat}
    {desired : Int} {fuel total : Nat}
    (hp : probe (content.take total) = .error .OtherErr) :
    loopGo probe content desired (fuel+1) total =
      some (.fatal "should not happen") := by
  rw [loopGo, hp]

/-- If the loop breaks with `total`, the probe of `content[..total]`
succeeded with exactly the desired version. -/
theorem loopGo_brk_probe (probe : Probe) (content : List Nat) (desired : Int) :
    ∀ fuel total t, loopGo probe content desired fuel total = some (.brk t) →
      probe (content.take t) = .ok (.Normal desired) := by
  intro fuel
  induction fuel with
  | zero => intro total t h; simp [loopGo] at h
  | succ n ih =>
    intro total t h
    rcases hp : probe (content.take total) with e | v
    · rcases e with _ | _
      · rw [loopGo_eq_toolong hp] at h; exact ih _ _ h
      · rw [loopGo_eq_other hp] at h; simp at h
    · rcases v with w | w
      · rw [loopGo_eq_normal hp] at h
        by_cases h1 : w < desired ∧ content.length ≤ total
        · rw [if_pos h1] at h; simp at h
        · rw [if_neg h1] at h
          by_cases h2 : w = desired
          · rw [if_pos h2] at h
            simp at h
            subst h2
            rw [← h]
            exact hp
          · rw [if_neg h2] at h
            by_cases h3 : content.length ≤ (if desired < w then total / 2 else total * 3 / 2)
            · rw [if_pos h3] at h; simp at h
            · rw [if_neg h3] at h; exact ih _ _ h
      · rw [loopGo_eq_micro hp] at h; simp at h

/-- The loop can only panic with one of the two source panic messages. -/
theorem loopGo_fatal_msg (probe : Probe) (content : List Nat) (desired : Int) :
    ∀ fuel total m, loopGo probe content desired fuel total = some (.fatal m) →
      m = "micro" ∨ m = "should not happen" := by
  intro fuel
  induction fuel with
  | zero => intro total m h; simp [loopGo] at h
  | succ n ih =>
    intro total m h
    rcases hp : probe (content.take total) with e | v
    · rcases e with _ | _
      · rw [loopGo_eq_toolong hp] at h; exact ih _ _ h
      · rw [loopGo_eq_other hp] at h; simp at h; right; exact h.symm
    · rcases v with w | w
      · rw [loopGo_eq_normal hp] at h
        by_cases h1 : w < desired ∧ content.length ≤ total
        · rw [if_pos h1] at h; simp at h
        · rw [if_neg h1] at h
          by_cases h2 : w = desired
          · rw [if_pos h2] at h; simp at h
          · rw [if_neg h2] at h
            by_cases h3 : content.length ≤ (if desired < w then total / 2 else total * 3 / 2)
            · rw [if_pos h3] at h; simp at h
            · rw [if_neg h3] at h; exact ih _ _ h
      · rw [loopGo_eq_micro hp] at h; simp at h; left; exact h.symm

/-- Starting the loop at `total = 0` keeps `total = 0` forever, so it can
never break with a positive chunk size. -/
theorem loopGo_zero_no_brk (probe : Probe) (content : List Nat) (desired : Int) :
    ∀ fuel t, loopGo probe content desired fuel 0 = some (.brk t) → t = 0 := by
  intro fuel
  induction fuel with
  | zero => intro t h; simp [loopGo] at h
  | succ n ih =>
    intro t h
    rcases hp : probe (content.take 0) with e | v
    · rcases e with _ | _
      · rw [loopGo_eq_toolong hp] at h; exact ih _ h
      · rw [loopGo_eq_other hp] at h; simp at h
    · rcases v with w | w
      · rw [loopGo_eq_normal hp] at h
        by_cases h1 : w < desired ∧ content.length ≤ 0
        · rw [if_pos h1] at h; simp at h
        · rw [if_neg h1] at h
          by_cases h2 : w = desired
          · rw [if_pos h2] at h; simp at h; omega
          · rw [if_neg h2] at h
            by_cases h3 : content.length ≤ (if desired < w then 0 / 2 else 0 * 3 / 2)
            · rw [if_pos h3] at h; simp at h
            · rw [if_neg h3] at h
              have h0 : (if desired < w then 0 / 2 else 0 * 3 / 2) = 0 := by
                split <;> rfl
              rw [h0] at h
              exact ih _ h
      · rw [loopGo_eq_micro hp] at h; simp at h

/-- `estimate_chunk` after the two validation checks is the loop followed
by the rebalance step. -/
theorem estimate_chunk_of_loop {probe : Probe} {content : List Nat}
    {d fuel : Nat} (hd : ¬(d = 0 ∨ 40 < d)) (hl : ¬(content.length = 0)) :
    estimate_chunk probe content d fuel =
      match loopGo probe content (d : Int) fuel content.length with
      | none => none
      | some .retLen => some (.ok content.length)
      | some (.brk c) =>
        if c = 0 then some (.fatal "attempt to divide by zero")
        else some (.ok (content.length / (content.length / c + 1) + 1))
      | some (.fatal m) => some (.fatal m) := by
  unfold estimate_chunk
  rw [if_neg hd, if_neg hl]

/-! ## Claim theorems: error handling and loop structure -/

/-- C3: `estimate_chunk` returns an error iff the version is 0 or above
40 (message "Invalid version") or the content is empty (message
"Invalid empty content"); the version check comes first, so on empty
content with version 0 the version error is reported; and on either
error the result does not depend on the probe (no probing happened). -/
theorem claim_C3_errors (probe probe2 : Probe) (content : List Nat)
    (d fuel : Nat) :
    ((∃ m, estimate_chunk probe content d fuel = some (.err m)) ↔
      d = 0 ∨ 40 < d ∨ content.length = 0)
    ∧ (d = 0 ∨ 40 < d →
        estimate_chunk probe content d fuel = some (.err "Invalid version"))
    ∧ (¬(d = 0 ∨ 40 < d) → content.length = 0 →
        estimate_chunk probe content d fuel =
          some (.err "Invalid empty content"))
    ∧ estimate_chunk probe ([] : List Nat) 0 fuel =
        some (.err "Invalid version")
    ∧ (d = 0 ∨ 40 < d ∨ content.length = 0 →
        estimate_chunk probe content d fuel =
          estimate_chunk probe2 content d fuel) := by
  have hver : ∀ (p : Probe), d = 0 ∨ 40 < d →
      estimate_chunk p content d fuel = some (.err "Invalid version") := by
    intro p h
    unfold estimate_chunk
    rw [if_pos h]
  have hemp : ∀ (p : Probe), ¬(d = 0 ∨ 40 < d) → content.length = 0 →
      estimate_chunk p content d fuel = some (.err "Invalid empty content") := by
    intro p h h0
    unfold estimate_chunk
    rw [if_neg h, if_pos h0]
  refine ⟨⟨?_, ?_⟩, hver probe, hemp probe, ?_, ?_⟩
  · rintro ⟨m, hm⟩
    by_cases h : d = 0 ∨ 40 < d
    · tauto
    · by_cases h0 : content.length = 0
      · tauto
      · exfalso
        rw [estimate_chunk_of_loop h h0] at hm
        rcases hr : loopGo probe content (d : Int) fuel content.length with _ | r
        · rw [hr] at hm; simp at hm
        · rcases r with _ | c | m' <;> rw [hr] at hm
          · simp at hm
          · by_cases hc : c = 0 <;> simp [hc] at hm
          · simp at hm
  · intro h
    rcases h with h | h | h
    · exact ⟨_, hver probe (Or.inl h)⟩
    · exact ⟨_, hver probe (Or.inr h)⟩
    · by_cases hd : d = 0 ∨ 40 < d
      · exact ⟨_, hver probe hd⟩
      · exact ⟨_, hemp probe hd h⟩
  · unfold estimate_chunk
    rw [if_pos (Or.inl rfl)]
  · intro h
    by_cases hd : d = 0 ∨ 40 < d
    · rw [hver probe hd, hver probe2 hd]
    · have h0 : content.length = 0 := by tauto
      rw [hemp probe hd h0, hemp probe2 hd h0]

/-- C3 witness: concrete error outcomes at version 0 (empty input) and
version 41. -/
theorem claim_C3_errors_witness :
    estimate_chunk tableProbe ([] : List Nat) 0 5 =
      some (.err "Invalid version")
    ∧ estimate_chunk tableProbe (List.replicate 3 120) 41 5 =
      some (.err "Invalid version")
    ∧ estimate_chunk tableProbe (List.replicate 0 120) 7 5 =
      some (.err "Invalid empty content") :=
  ⟨(claim_C3_errors tableProbe tableProbe [] 0 5).2.2.2.1,
   (claim_C3_errors tableProbe tableProbe (List.replicate 3 120) 41 5).2.1
     (by omega),
   (claim_C3_errors tableProbe tableProbe (List.replicate 0 120) 7 5).2.2.1
     (by omega) (by decide)⟩

/-- C5: when the search loop breaks with a prefix length `t` (whose probe
yielded exactly the desired version), `estimate_chunk` returns
`len / (len / t + 1) + 1`, both divisions being integer divisions. -/
theorem claim_C5_rebalance (probe : Probe) (content : List Nat)
    (d fuel t : Nat) (hd1 : 1 ≤ d) (hd40 : d ≤ 40)
    (hbrk : loopGo probe content (d : Int) fuel content.length =
      some (.brk t)) (ht : 1 ≤ t) :
    estimate_chunk probe content d fuel =
      some (.ok (content.length / (content.length / t + 1) + 1))
    ∧ probe (content.take t) = .ok (.Normal (d : Int)) := by
  have hl : ¬(content.length = 0) := by
    intro h0
    rw [h0] at hbrk
    have := loopGo_zero_no_brk probe content (d : Int) fuel t hbrk
    omega
  constructor
  · rw [estimate_chunk_of_loop (by omega) hl, hbrk]
    have htz : ¬(t = 0) := by omega
    simp [htz]
  · exact loopGo_brk_probe probe content (d : Int) fuel content.length t hbrk

/-- C5 witness: 20 bytes at desired version 2 break at the full length
and rebalance to chunk size 11. -/
theorem claim_C5_rebalance_witness :
    estimate_chunk tableProbe (List.replicate 20 120) 2 1 =
      some (.ok ((List.replicate 20 120).length /
        ((List.replicate 20 120).length / 20 + 1) + 1))
    ∧ tableProbe ((List.replicate 20 120).take 20) =
      .ok (.Normal (2 : Int)) :=
  claim_C5_rebalance tableProbe (List.replicate 20 120) 2 1 20
    (by omega) (by omega) (by decide) (by omega)

/-- C10: when the loop exits through the exact-match branch with
`total = len` and `len ≥ 3`, the returned chunk size is `len / 2 + 1`,
strictly less than `len`: the input is split even though it fits. -/
theorem claim_C10_split_despite_fit (probe : Probe) (content : List Nat)
    (d fuel : Nat) (hd1 : 1 ≤ d) (hd40 : d ≤ 40) (hlen : 3 ≤ content.length)
    (hbrk : loopGo probe content (d : Int) fuel content.length =
      some (.brk content.length)) :
    estimate_chunk probe content d fuel =
      some (.ok (content.length / 2 + 1))
    ∧ content.length / 2 + 1 < content.length := by
  have hl : ¬(content.length = 0) := by omega
  constructor
  · rw [estimate_chunk_of_loop (by omega) hl, hbrk]
    simp [hl, Nat.div_self (show 0 < content.length by omega)]
  · omega

/-- C6: (a) if the probe of the whole buffer succeeds with a version
strictly below the desired one, `estimate_chunk` returns the whole
length (no rebalance); (b) if after an adjustment the new `total`
reaches the length, the loop returns immediately; (c) a loop that
returned early yields `content.length` from `estimate_chunk`. -/
theorem claim_C6_return_len (probe : Probe) (content : List Nat)
    (d fuel total : Nat) (w : Int) :
    (1 ≤ d → d ≤ 40 → content.length ≠ 0 →
      probe (content.take content.length) = .ok (.Normal w) → w < (d : Int) →
      estimate_chunk probe content d (fuel+1) = some (.ok content.length))
    ∧ (probe (content.take total) = .ok (.Normal w) →
      ¬(w < (d : Int) ∧ content.length ≤ total) → w ≠ (d : Int) →
      content.length ≤ (if (d : Int) < w then total / 2 else total * 3 / 2) →
      loopGo probe content (d : Int) (fuel+1) total = some .retLen)
    ∧ (1 ≤ d → d ≤ 40 → content.length ≠ 0 →
      loopGo probe content (d : Int) fuel content.length = some .retLen →
      estimate_chunk probe content d fuel = some (.ok content.length)) := by
  refine ⟨?_, ?_, ?_⟩
  · intro hd1 hd40 hl hp hw
    have hret : loopGo probe content (d : Int) (fuel+1) content.length =
        some .retLen := by
      rw [loopGo_eq_normal hp, if_pos ⟨hw, le_refl _⟩]
    rw [estimate_chunk_of_loop (by omega) hl, hret]
  · intro hp hno hne hge
    rw [loopGo_eq_normal hp, if_neg hno, if_neg hne, if_pos hge]
  · intro hd1 hd40 hl hret
    rw [estimate_chunk_of_loop (by omega) hl, hret]

/-- C6 witness: (a) 5 bytes at desired version 3 return the full length
at once; (b) 30 bytes, prefix 21 at desired version 3: the grown total
31 reaches the length and the loop returns early. -/
theorem claim_C6_return_len_witness :
    estimate_chunk tableProbe (List.replicate 5 120) 3 1 =
      some (.ok (List.replicate 5 120).length)
    ∧ loopGo tableProbe (List.replicate 30 120) 3 1 21 = some .retLen :=
  ⟨(claim_C6_return_len tableProbe (List.replicate 5 120) 3 0 0 1).1
      (by omega) (by omega) (by decide) (by decide) (by decide),
   (claim_C6_return_len tableProbe (List.replicate 30 120) 3 0 21 2).2.1
      (by decide) (by decide) (by decide) (by decide)⟩

/-- C7: each loop iteration updates `total` exactly as the source does:
halve on overshoot (`width > desired`), grow to `total * 3 / 2` on
undershoot below the full length, halve and retry on capacity
exceeded. -/
theorem claim_C7_updates (probe : Probe) (content : List Nat)
    (desired w : Int) (fuel total : Nat) :
    (probe (content.take total) = .ok (.Normal w) → desired < w →
      loopGo probe content desired (fuel+1) total =
        if content.length ≤ total / 2 then some .retLen
        else loopGo probe content desired fuel (total / 2))
    ∧ (probe (content.take total) = .ok (.Normal w) → w < desired →
      ¬ content.length ≤ total →
      loopGo probe content desired (fuel+1) total =
        if content.length ≤ total * 3 / 2 then some .retLen
        else loopGo probe content desired fuel (total * 3 / 2))
    ∧ (probe (content.take total) = .error .DataTooLong →
      loopGo probe content desired (fuel+1) total =
        loopGo probe content desired fuel (total / 2)) := by
  refine ⟨?_, ?_, ?_⟩
  · intro hp hgt
    rw [loopGo_eq_normal hp, if_neg (by push_neg; intro h; omega),
      if_neg (by omega : ¬ w = desired), if_pos hgt]
  · intro hp hlt hnl
    rw [loopGo_eq_normal hp, if_neg (by tauto),
      if_neg (by omega : ¬ w = desired), if_neg (by omega : ¬ desired < w)]
  · intro hp
    exact loopGo_eq_toolong hp

/-- C7 witness: concrete halving (version 3 probed, desired 1), growth
(version 1 probed, desired 5) and capacity-exceeded (2400 bytes) steps. -/
theorem claim_C7_updates_witness :
    loopGo tableProbe (List.replicate 100 120) 1 2 50 =
      loopGo tableProbe (List.replicate 100 120) 1 1 25
    ∧ loopGo tableProbe (List.replicate 100 120) 5 1 10 =
      loopGo tableProbe (List.replicate 100 120) 5 0 15
    ∧ loopGo tableProbe (List.replicate 2400 120) 16 1 2400 =
      loopGo tableProbe (List.replicate 2400 120) 16 0 1200 := by
  refine ⟨?_, ?_, ?_⟩
  · rw [(claim_C7_updates tableProbe (List.replicate 100 120) 1 4 1 50).1
      (by decide) (by decide)]
    decide
  · rw [(claim_C7_updates tableProbe (List.replicate 100 120) 5 1 0 10).2.1
      (by decide) (by decide) (by decide)]
    decide
  · refine (claim_C7_updates tableProbe (List.replicate 2400 120) 16 0 0
      2400).2.2 ?_
    have h : ((List.replicate 2400 120).take 2400).length = 2400 := by
      rw [List.take_replicate, List.length_replicate]
      omega
    simp only [tableProbe, h]
    rfl

/-- With a probe that only ever answers a normal version or capacity
exceeded, the loop never reaches a panic branch. -/
theorem loopGo_no_fatal (probe : Probe) (content : List Nat) (desired : Int)
    (hwb : WellBehaved probe) :
    ∀ fuel total m, loopGo probe content desired fuel total ≠
      some (.fatal m) := by
  intro fuel
  induction fuel with
  | zero => intro t m h; simp [loopGo] at h
  | succ n ih =>
    intro t m h
    rcases hwb (content.take t) with ⟨w, hp⟩ | hp
    · rw [loopGo_eq_normal hp] at h
      by_cases h1 : w < desired ∧ content.length ≤ t
      · rw [if_pos h1] at h; simp at h
      · rw [if_neg h1] at h
        by_cases h2 : w = desired
        · rw [if_pos h2] at h; simp at h
        · rw [if_neg h2] at h
          by_cases h3 : content.length ≤
              (if desired < w then t / 2 else t * 3 / 2)
          · rw [if_pos h3] at h; simp at h
          · rw [if_neg h3] at h; exact ih _ _ h
    · rw [loopGo_eq_toolong hp] at h; exact ih _ _ h

/-- C8: a Micro version or a non-capacity probe error sends the loop into
a panic (`fatal`) rather than a recoverable error; a loop panic is
propagated by `estimate_chunk` as a panic; and under a probe behaving as
specified these branches are never taken. -/
theorem claim_C8_fatal_branches (probe : Probe) (content : List Nat)
    (d fuel total : Nat) (x : Int) (m : String) :
    (probe (content.take total) = .ok (.Micro x) →
      loopGo probe content (d : Int) (fuel+1) total = some (.fatal "micro"))
    ∧ (probe (content.take total) = .error .OtherErr →
      loopGo probe content (d : Int) (fuel+1) total =
        some (.fatal "should not happen"))
    ∧ (1 ≤ d → d ≤ 40 → content.length ≠ 0 →
      loopGo probe content (d : Int) fuel content.length = some (.fatal m) →
      estimate_chunk probe content d fuel = some (.fatal m))
    ∧ (WellBehaved probe →
      loopGo probe content (d : Int) fuel total ≠ some (.fatal m)) := by
  refine ⟨?_, ?_, ?_, ?_⟩
  · intro hp; exact loopGo_eq_micro hp
  · intro hp; exact loopGo_eq_other hp
  · intro hd1 hd40 hl hfat
    rw [estimate_chunk_of_loop (by omega) hl, hfat]
  · intro hwb
    exact loopGo_no_fatal probe content (d : Int) hwb fuel total m

/-- C8 witness: a Micro-reporting probe panics with "micro", an
other-error probe panics with "should not happen", the panic propagates
through `estimate_chunk`, and a probe always answering version 1 never
panics. -/
theorem claim_C8_fatal_branches_witness :
    loopGo (fun _ => .ok (.Micro 1)) [120] (1 : Int) 1 1 =
      some (.fatal "micro")
    ∧ loopGo (fun _ => .error .OtherErr) [120] (1 : Int) 1 1 =
      some (.fatal "should not happen")
    ∧ estimate_chunk (fun _ => .ok (.Micro 1)) [120] 1 1 =
      some (.fatal "micro")
    ∧ loopGo (fun _ => .ok (.Normal 1)) [120] (1 : Int) 5 1 ≠
      some (.fatal "micro") :=
  ⟨(claim_C8_fatal_branches (fun _ => .ok (.Micro 1)) [120] 1 0 1 1
      "micro").1 rfl,
   (claim_C8_fatal_branches (fun _ => .error .OtherErr) [120] 1 0 1 1
      "should not happen").2.1 rfl,
   (claim_C8_fatal_branches (fun _ => .ok (.Micro 1)) [120] 1 1 0 1
      "micro").2.2.1 (by omega) (by omega) (by decide) (by decide),
   (claim_C8_fatal_branches (fun _ => .ok (.Normal 1)) [120] 1 5 1 1
      "micro").2.2.2 (fun bs => Or.inl ⟨1, rfl⟩)⟩

/-- One unfolding of the probed-totals list: normal version. -/
theorem loopProbes_eq_normal {probe : Probe} {content : List Nat}
    {desired w : Int} {fuel total : Nat}
    (hp : probe (content.take total) = .ok (.Normal w)) :
    loopProbes probe content desired (fuel+1) total =
      total ::
        (if w < desired ∧ content.length ≤ total then []
        else if w = desired then []
        else if content.length ≤ (if desired < w then total / 2 else total * 3 / 2)
          then []
          else loopProbes probe content desired fuel
            (if desired < w then total / 2 else total * 3 / 2)) := by
  rw [loopProbes, hp]

/-- One unfolding of the probed-totals list: micro version. -/
theorem loopProbes_eq_micro {probe : Probe} {content : List Nat}
    {desired : Int} {x : Int} {fuel total : Nat}
    (hp : probe (content.take total) = .ok (.Micro x)) :
    loopProbes probe content desired (fuel+1) total = [total] := by
  rw [loopProbes, hp]

/-- One unfolding of the probed-totals list: capacity exceeded. -/
theorem loopProbes_eq_toolong {probe : Probe} {content : List Nat}
    {desired : Int} {fuel total : Nat}
    (hp : probe (content.take total) = .error .DataTooLong) :
    loopProbes probe content desired (fuel+1) total =
      total :: loopProbes probe content desired fuel (total / 2) := by
  rw [loopProbes, hp]

/-- One unfolding of the probed-totals list: other error. -/
theorem loopProbes_eq_other {probe : Probe} {content : List Nat}
    {desired : Int} {fuel total : Nat}
    (hp : probe (content.take total) = .error .OtherErr) :
    loopProbes probe content desired (fuel+1) total = [total] := by
  rw [loopProbes, hp]

/-- The loop invariant: when the probe answers version 1 on the 1-byte
prefix (as the QR library does) and the desired version is at least 1,
every probed `total` stays in `[1, len]`, and a break carries a `total`
in `[1, len]`. -/
theorem loopGo_inv (probe : Probe) (content : List Nat) (d : Nat)
    (hd1 : 1 ≤ d) (h1 : probe (content.take 1) = .ok (.Normal 1)) :
    ∀ fuel total, 1 ≤ total → total ≤ content.length →
      (∀ u ∈ loopProbes probe content (d : Int) fuel total,
        1 ≤ u ∧ u ≤ content.length)
      ∧ (∀ u, loopGo probe content (d : Int) fuel total = some (.brk u) →
          1 ≤ u ∧ u ≤ content.length) := by
  intro fuel
  induction fuel with
  | zero =>
    intro t ht1 ht2
    constructor
    · intro u hu; simp [loopProbes] at hu
    · intro u h; simp [loopGo] at h
  | succ n ih =>
    intro t ht1 ht2
    rcases hp : probe (content.take t) with e | v
    · rcases e with _ | _
      · have ht2' : 2 ≤ t := by
          rcases Nat.lt_or_ge t 2 with h | h
          · exfalso
            have : t = 1 := by omega
            rw [this, h1] at hp
            cases hp
          · exact h
        have hrec := ih (t / 2) (by omega) (by omega)
        constructor
        · intro u hu
          rw [loopProbes_eq_toolong hp] at hu
          rcases List.mem_cons.mp hu with hu | hu
          · omega
          · exact hrec.1 u hu
        · intro u h
          rw [loopGo_eq_toolong hp] at h
          exact hrec.2 u h
      · constructor
        · intro u hu
          rw [loopProbes_eq_other hp] at hu
          simp at hu; omega
        · intro u h
          rw [loopGo_eq_other hp] at h
          simp at h
    · rcases v with w | x
      · by_cases hc1 : w < (d : Int) ∧ content.length ≤ t
        · constructor
          · intro u hu
            rw [loopProbes_eq_normal hp, if_pos hc1] at hu
            simp at hu; omega
          · intro u h
            rw [loopGo_eq_normal hp, if_pos hc1] at h
            simp at h
        · by_cases hc2 : w = (d : Int)
          · constructor
            · intro u hu
              rw [loopProbes_eq_normal hp, if_neg hc1, if_pos hc2] at hu
              simp at hu; omega
            · intro u h
              rw [loopGo_eq_normal hp, if_neg hc1, if_pos hc2] at h
              simp at h
              omega
          · have htlow : (d : Int) < w → 2 ≤ t := by
              intro hlt
              rcases Nat.lt_or_ge t 2 with h | h
              · exfalso
                have ht1' : t = 1 := by omega
                rw [ht1', h1] at hp
                injection hp with hp'
                injection hp' with hp''
                omega
              · exact h
            have hstep : 1 ≤ (if (d : Int) < w then t / 2 else t * 3 / 2) := by
              by_cases hgt : (d : Int) < w
              · rw [if_pos hgt]
                have := htlow hgt
                omega
              · rw [if_neg hgt]
                omega
            by_cases hc3 : content.length ≤
                (if (d : Int) < w then t / 2 else t * 3 / 2)
            · constructor
              · intro u hu
                rw [loopProbes_eq_normal hp, if_neg hc1, if_neg hc2,
                  if_pos hc3] at hu
                simp at hu; omega
              · intro u h
                rw [loopGo_eq_normal hp, if_neg hc1, if_neg hc2,
                  if_pos hc3] at h
                simp at h
            · push_neg at hc3
              have hrec := ih _ hstep (by omega)
              constructor
              · intro u hu
                rw [loopProbes_eq_normal hp, if_neg hc1, if_neg hc2,
                  if_neg (by omega : ¬ content.length ≤
                    (if (d : Int) < w then t / 2 else t * 3 / 2))] at hu
                rcases List.mem_cons.mp hu with hu | hu
                · omega
                · exact hrec.1 u hu
              · intro u h
                rw [loopGo_eq_normal hp, if_neg hc1, if_neg hc2,
                  if_neg (by omega : ¬ content.length ≤
                    (if (d : Int) < w then t / 2 else t * 3 / 2))] at h
                exact hrec.2 u h
      · constructor
        · intro u hu
          rw [loopProbes_eq_micro hp] at hu
          simp at hu; omega
        · intro u h
          rw [loopGo_eq_micro hp] at h
          simp at h

/-- C9: with the probe behaving as the QR library does on the 1-byte
prefix, every probed prefix length lies in `[1, len]` (the slice is
always in bounds), a break carries a positive `total`, and the rebalance
divisions never divide by zero. -/
theorem claim_C9_invariant (probe : Probe) (content : List Nat)
    (d fuel : Nat) (hd1 : 1 ≤ d) (hd40 : d ≤ 40) (hl : 1 ≤ content.length)
    (h1 : probe (content.take 1) = .ok (.Normal 1)) :
    (∀ u ∈ loopProbes probe content (d : Int) fuel content.length,
      1 ≤ u ∧ u ≤ content.length)
    ∧ (∀ u, loopGo probe content (d : Int) fuel content.length =
        some (.brk u) → 1 ≤ u)
    ∧ estimate_chunk probe content d fuel ≠
        some (.fatal "attempt to divide by zero") := by
  obtain ⟨ha, hb⟩ := loopGo_inv probe content d hd1 h1 fuel
    content.length hl (le_refl _)
  refine ⟨ha, fun u h => (hb u h).1, ?_⟩
  intro hbad
  rw [estimate_chunk_of_loop (by omega) (by omega)] at hbad
  rcases hr : loopGo probe content (d : Int) fuel content.length with _ | r
  · rw [hr] at hbad; simp at hbad
  · rcases r with _ | c | m <;> rw [hr] at hbad
    · simp at hbad
    · have hc1 := (hb c hr).1
      have hc : ¬ c = 0 := by omega
      simp [hc] at hbad
    · simp at hbad
      subst hbad
      rcases loopGo_fatal_msg probe content (d : Int) fuel
        content.length _ hr with h | h <;> exact absurd h (by decide)

/-- C9 witness: 5 bytes at desired version 1 through the table probe. -/
theorem claim_C9_invariant_witness :
    estimate_chunk tableProbe (List.replicate 5 120) 1 10 ≠
      some (.fatal "attempt to divide by zero") :=
  (claim_C9_invariant tableProbe (List.replicate 5 120) 1 10
    (by omega) (by omega) (by decide) (by decide)).2.2

/-- C10 witness: 26 bytes at desired version 2 (26 is exactly the byte
capacity of version 2 at level M) break at the full length; the result
is 14 < 26. -/
theorem claim_C10_split_despite_fit_witness :
    estimate_chunk tableProbe (List.replicate 26 120) 2 1 =
      some (.ok ((List.replicate 26 120).length / 2 + 1))
    ∧ (List.replicate 26 120).length / 2 + 1 <
      (List.replicate 26 120).length :=
  claim_C10_split_despite_fit tableProbe (List.replicate 26 120) 2 1
    (by omega) (by omega) (by decide) (by decide)

/-! ## Termination of the search loop for the table probe -/

theorem capM_step : ∀ j, j < 40 → capM j < capM (j+1) := by decide

theorem capM_mono : ∀ i j, i ≤ j → j ≤ 40 → capM i ≤ capM j := by
  intro i j hij hj40
  induction j with
  | zero =>
    have h0 : i = 0 := by omega
    rw [h0]
  | succ k ih =>
    rcases Nat.lt_or_ge i (k+1) with h | h
    · have h1 := ih (by omega) (by omega)
      have h2 := capM_step k (by omega)
      omega
    · have h0 : i = k+1 := by omega
      rw [h0]

theorem capM_strict : ∀ i j, i < j → j ≤ 40 → capM i < capM j := by
  intro i j hij hj40
  have h1 := capM_step i (by omega)
  have h2 := capM_mono (i+1) j (by omega) hj40
  omega

theorem reach_succ_high {lo hi fuel t : Nat} (h : hi < t) :
    reach lo hi (fuel+1) t = reach lo hi fuel (t / 2) := by
  rw [reach, if_pos h]

theorem reach_succ_low {lo hi fuel t : Nat} (hh : ¬ hi < t) (h : t < lo) :
    reach lo hi (fuel+1) t = reach lo hi fuel (t * 3 / 2) := by
  rw [reach, if_neg hh, if_pos h]

theorem reach_window_succ {lo hi fuel t : Nat} (h1 : ¬ hi < t)
    (h2 : ¬ t < lo) : reach lo hi (fuel+1) t = true := by
  rw [reach, if_neg h1, if_neg h2]

theorem Reaches_window {lo hi t : Nat} (h1 : lo ≤ t) (h2 : t ≤ hi) :
    Reaches lo hi t :=
  ⟨0+1, reach_window_succ (by omega) (by omega)⟩

theorem Reaches_high {lo hi t : Nat} (h : hi < t)
    (hr : Reaches lo hi (t / 2)) : Reaches lo hi t := by
  obtain ⟨f, hf⟩ := hr
  exact ⟨f+1, by rw [reach_succ_high h]; exact hf⟩

theorem Reaches_low {lo hi t : Nat} (hh : ¬ hi < t) (h : t < lo)
    (hr : Reaches lo hi (t * 3 / 2)) : Reaches lo hi t := by
  obtain ⟨f, hf⟩ := hr
  exact ⟨f+1, by rw [reach_succ_low hh h]; exact hf⟩

theorem checkFrom_spec (lo hi : Nat) : ∀ k a, checkFrom lo hi a k = true →
    ∀ t, a ≤ t → t < a + k → reach lo hi 100 t = true := by
  intro k
  induction k with
  | zero => intro a _ t h1 h2; omega
  | succ n ih =>
    intro a hc t h1 h2
    rw [checkFrom] at hc
    simp only [Bool.and_eq_true] at hc
    rcases Nat.eq_or_lt_of_le h1 with h | h
    · rw [← h]; exact hc.1
    · exact ih (a+1) hc.2 t (by omega) (by omega)

set_option maxRecDepth 100000

set_option maxHeartbeats 1600000

theorem subwinOK_v1 : subwinOK 1 = true := by decide

theorem subwinOK_v2 : subwinOK 2 = true := by decide

theorem subwinOK_v3 : subwinOK 3 = true := by decide

theorem subwinOK_v4 : subwinOK 4 = true := by decide

theorem subwinOK_v5 : subwinOK 5 = true := by decide

theorem subwinOK_v6 : subwinOK 6 = true := by decide

theorem subwinOK_v7 : subwinOK 7 = true := by decide

theorem subwinOK_v8 : subwinOK 8 = true := by decide

theorem subwinOK_v9 : subwinOK 9 = true := by decide

theorem subwinOK_v10 : subwinOK 10 = true := by decide

theorem subwinOK_v11 : subwinOK 11 = true := by decide

theorem subwinOK_v12 : subwinOK 12 = true := by decide

theorem subwinOK_v13 : subwinOK 13 = true := by decide

theorem subwinOK_v14 : subwinOK 14 = true := by decide

theorem subwinOK_v15 : subwinOK 15 = true := by decide

theorem subwinOK_v16 : subwinOK 16 = true := by decide

theorem subwinOK_v17 : subwinOK 17 = true := by decide

theorem subwinOK_v18 : subwinOK 18 = true := by decide

theorem subwinOK_v19 : subwinOK 19 = true := by decide

theorem subwinOK_v20 : subwinOK 20 = true := by decide

theorem subwinOK_v21 : subwinOK 21 = true := by decide

theorem subwinOK_v22 : subwinOK 22 = true := by decide

theorem subwinOK_v23 : subwinOK 23 = true := by decide

theorem subwinOK_v24 : subwinOK 24 = true := by decide

theorem subwinOK_v25 : subwinOK 25 = true := by decide

theorem subwinOK_v26 : subwinOK 26 = true := by decide

theorem subwinOK_v27 : subwinOK 27 = true := by decide

theorem subwinOK_v28 : subwinOK 28 = true := by decide

theorem subwinOK_v29 : subwinOK 29 = true := by decide

theorem subwinOK_v30 : subwinOK 30 = true := by decide

theorem subwinOK_v31 : subwinOK 31 = true := by decide

theorem subwinOK_v32 : subwinOK 32 = true := by decide

theorem subwinOK_v33 : subwinOK 33 = true := by decide

theorem subwinOK_v34 : subwinOK 34 = true := by decide

theorem subwinOK_v35 : subwinOK 35 = true := by decide

theorem subwinOK_v36 : subwinOK 36 = true := by decide

theorem subwinOK_v37 : subwinOK 37 = true := by decide

theorem subwinOK_v38 : subwinOK 38 = true := by decide

theorem subwinOK_v39 : subwinOK 39 = true := by decide

theorem subwinOK_v40 : subwinOK 40 = true := by decide

/-- Every valid version passes the recurrent-zone check. -/
theorem subwinOK_all : ∀ d, 1 ≤ d → d ≤ 40 → subwinOK d = true := by
  intro d h1 h2
  interval_cases d
  · exact subwinOK_v1
  · exact subwinOK_v2
  · exact subwinOK_v3
  · exact subwinOK_v4
  · exact subwinOK_v5
  · exact subwinOK_v6
  · exact subwinOK_v7
  · exact subwinOK_v8
  · exact subwinOK_v9
  · exact subwinOK_v10
  · exact subwinOK_v11
  · exact subwinOK_v12
  · exact subwinOK_v13
  · exact subwinOK_v14
  · exact subwinOK_v15
  · exact subwinOK_v16
  · exact subwinOK_v17
  · exact subwinOK_v18
  · exact subwinOK_v19
  · exact subwinOK_v20
  · exact subwinOK_v21
  · exact subwinOK_v22
  · exact subwinOK_v23
  · exact subwinOK_v24
  · exact subwinOK_v25
  · exact subwinOK_v26
  · exact subwinOK_v27
  · exact subwinOK_v28
  · exact subwinOK_v29
  · exact subwinOK_v30
  · exact subwinOK_v31
  · exact subwinOK_v32
  · exact subwinOK_v33
  · exact subwinOK_v34
  · exact subwinOK_v35
  · exact subwinOK_v36
  · exact subwinOK_v37
  · exact subwinOK_v38
  · exact subwinOK_v39
  · exact subwinOK_v40

/-- Every recurrent-zone state of a valid version reaches the window. -/
theorem subwin_Reaches (d : Nat) (hd1 : 1 ≤ d) (hd40 : d ≤ 40) :
    ∀ s, (capM d + 1) / 2 ≤ s → s ≤ capM (d-1) * 3 / 2 / 2 →
      Reaches (capM (d-1) + 1) (capM d) s := by
  intro s h1 h2
  have hsub := subwinOK_all d hd1 hd40
  rw [subwinOK] at hsub
  exact ⟨100, checkFrom_spec _ _ _ _ hsub s h1 (by omega)⟩

/-- Growth from below the window reaches it, given that the halving
landing zone below the window reaches it. -/
theorem Reaches_up (lo hi : Nat) (hlh : lo ≤ hi)
    (hsw : ∀ s, (hi + 1) / 2 ≤ s → s ≤ (lo - 1) * 3 / 2 / 2 → Reaches lo hi s) :
    ∀ t, 2 ≤ t → t < lo → Reaches lo hi t := by
  have main : ∀ k t, lo - t ≤ k → 2 ≤ t → t < lo → Reaches lo hi t := by
    intro k
    induction k with
    | zero => intro t hk h2 hlo; omega
    | succ n ih =>
      intro t hk h2 hlo
      have hgrow : t + 1 ≤ t * 3 / 2 := by omega
      by_cases hup : t * 3 / 2 < lo
      · exact Reaches_low (by omega) hlo
          (ih (t * 3 / 2) (by omega) (by omega) hup)
      · push_neg at hup
        by_cases hov : t * 3 / 2 ≤ hi
        · exact Reaches_low (by omega) hlo (Reaches_window hup hov)
        · push_neg at hov
          have hhalf1 : (hi + 1) / 2 ≤ t * 3 / 2 / 2 := by omega
          have hhalf2 : t * 3 / 2 / 2 ≤ (lo - 1) * 3 / 2 / 2 := by omega
          exact Reaches_low (by omega) hlo
            (Reaches_high hov (hsw _ hhalf1 hhalf2))
  intro t h2 hlo
  exact main (lo - t) t (le_refl _) h2 hlo

/-- Halving from above the window reaches it, given the landing zone. -/
theorem Reaches_down (lo hi : Nat) (hlh : lo ≤ hi) (hlo1 : 1 ≤ lo) (hhi3 : 3 ≤ hi)
    (hsw : ∀ s, (hi + 1) / 2 ≤ s → s ≤ (lo - 1) * 3 / 2 / 2 → Reaches lo hi s) :
    ∀ t, hi < t → Reaches lo hi t := by
  intro t
  induction t using Nat.strong_induction_on with
  | _ t ih =>
    intro hhi
    by_cases h1 : hi < t / 2
    · exact Reaches_high hhi (ih (t / 2) (by omega) h1)
    · push_neg at h1
      by_cases h2 : lo ≤ t / 2
      · exact Reaches_high hhi (Reaches_window h2 h1)
      · push_neg at h2
        exact Reaches_high hhi (Reaches_up lo hi hlh hsw (t / 2) (by omega) h2)

/-- Every start at least 2 reaches the window of a valid version. -/
theorem Reaches_all (lo hi : Nat) (hlh : lo ≤ hi) (hlo1 : 1 ≤ lo) (hhi3 : 3 ≤ hi)
    (hsw : ∀ s, (hi + 1) / 2 ≤ s → s ≤ (lo - 1) * 3 / 2 / 2 → Reaches lo hi s) :
    ∀ t, 2 ≤ t → Reaches lo hi t := by
  intro t h2
  by_cases ha : hi < t
  · exact Reaches_down lo hi hlh hlo1 hhi3 hsw t ha
  · push_neg at ha
    by_cases hb : t < lo
    · exact Reaches_up lo hi hlh hsw t h2 hb
    · push_neg at hb
      exact Reaches_window hb ha

theorem findVer_found : ∀ k a n, 1 ≤ a → capM (a-1) < n → n ≤ capM (a + k) →
    ∃ w, a ≤ w ∧ w ≤ a + k ∧ findVer n a (k+1) = some w ∧
      n ≤ capM w ∧ capM (w-1) < n := by
  intro k
  induction k with
  | zero =>
    intro a n ha hlow hhigh
    refine ⟨a, le_refl _, by omega, ?_, by simpa using hhigh, hlow⟩
    rw [findVer, if_pos (by simpa using hhigh)]
  | succ m ih =>
    intro a n ha hlow hhigh
    by_cases hc : n ≤ capM a
    · refine ⟨a, le_refl _, by omega, ?_, hc, hlow⟩
      rw [findVer, if_pos hc]
    · push_neg at hc
      have hre : a + (m+1) = (a+1) + m := by omega
      obtain ⟨w, hw1, hw2, hw3, hw4, hw5⟩ := ih (a+1) n (by omega)
        (by simpa using hc) (by rw [← hre]; exact hhigh)
      refine ⟨w, by omega, by omega, ?_, hw4, hw5⟩
      rw [findVer, if_neg (by omega)]
      exact hw3

theorem findVer_none : ∀ k a n, (∀ j, a ≤ j → j < a + k → capM j < n) →
    findVer n a k = none := by
  intro k
  induction k with
  | zero => intro a n _; rfl
  | succ m ih =>
    intro a n h
    rw [findVer, if_neg (by have := h a (le_refl _) (by omega); omega)]
    exact ih (a+1) n (fun j hj1 hj2 => h j (by omega) (by omega))

/-- The table probe on a buffer of length in `[1, capM 40]` answers the
least version whose capacity holds it. -/
theorem tableProbe_normal (n : Nat) (hn1 : 1 ≤ n) (hn40 : n ≤ capM 40) :
    ∃ w, 1 ≤ w ∧ w ≤ 40 ∧ n ≤ capM w ∧ capM (w-1) < n ∧
      ∀ bs : List Nat, bs.length = n →
        tableProbe bs = .ok (.Normal (w : Int)) := by
  obtain ⟨w, hw1, hw2, hw3, hw4, hw5⟩ := findVer_found 39 1 n (le_refl _)
    (by have h0 : capM (1-1) = 0 := rfl; omega) (by simpa using hn40)
  refine ⟨w, hw1, by omega, hw4, hw5, ?_⟩
  intro bs hbs
  have hfv : findVer n 1 40 = some w := hw3
  simp only [tableProbe]
  rw [hbs, hfv]

/-- The table probe on a buffer longer than the capacity of version 40
fails with the capacity-exceeded signal. -/
theorem tableProbe_toolong (n : Nat) (hn : capM 40 < n) :
    ∀ bs : List Nat, bs.length = n →
      tableProbe bs = .error .DataTooLong := by
  intro bs hbs
  have hfv : findVer n 1 40 = none := by
    apply findVer_none
    intro j hj1 hj2
    have := capM_mono j 40 (by omega) (le_refl _)
    omega
  simp only [tableProbe]
  rw [hbs, hfv]

/-- When the abstract dynamics reach the window within `fuel` steps, the
search loop with the table probe returns within the same fuel, either
through an early return or through a break whose `total` is in
`[1, len]`. -/
theorem loop_of_reach (content : List Nat) (d : Nat) (hd1 : 1 ≤ d)
    (hd40 : d ≤ 40) :
    ∀ fuel t, 1 ≤ t → t ≤ content.length →
      reach (capM (d-1) + 1) (capM d) fuel t = true →
      ∃ r, loopGo tableProbe content (d : Int) fuel t = some r ∧
        (r = .retLen ∨ ∃ u, r = .brk u ∧ 1 ≤ u ∧ u ≤ content.length) := by
  intro fuel
  induction fuel with
  | zero => intro t _ _ hr; simp [reach] at hr
  | succ n ih =>
    intro t ht1 htL hr
    have hlen : (content.take t).length = t := by
      rw [List.length_take]; omega
    by_cases hcap : t ≤ capM 40
    · obtain ⟨w, hw1, hw40, hwle, hwgt, hpe⟩ := tableProbe_normal t ht1 hcap
      have hp : tableProbe (content.take t) = .ok (.Normal (w : Int)) :=
        hpe _ hlen
      by_cases hhi : capM d < t
      · have hwd : d < w := by
          by_contra hle
          push_neg at hle
          have := capM_mono w d hle hd40
          omega
        have hcast : (d : Int) < (w : Int) := by exact_mod_cast hwd
        rw [reach_succ_high hhi] at hr
        rw [loopGo_eq_normal hp, if_neg (by rintro ⟨h, _⟩; omega),
          if_neg (by omega : ¬ (w : Int) = (d : Int)), if_pos hcast]
        by_cases hret : content.length ≤ t / 2
        · rw [if_pos hret]
          exact ⟨.retLen, rfl, Or.inl rfl⟩
        · rw [if_neg hret]
          have hc1 : capM 1 ≤ capM d := capM_mono 1 d hd1 hd40
          have hc14 : capM 1 = 14 := rfl
          exact ih (t / 2) (by omega) (by omega) hr
      · push_neg at hhi
        by_cases hlo : t < capM (d-1) + 1
        · have hwd : w < d := by
            by_contra hle
            push_neg at hle
            have := capM_mono (d-1) (w-1) (by omega) (by omega)
            omega
          have hcast : (w : Int) < (d : Int) := by exact_mod_cast hwd
          rw [reach_succ_low (by omega) hlo] at hr
          rw [loopGo_eq_normal hp]
          by_cases hfull : content.length ≤ t
          · rw [if_pos ⟨hcast, hfull⟩]
            exact ⟨.retLen, rfl, Or.inl rfl⟩
          · rw [if_neg (by rintro ⟨_, h⟩; exact hfull h),
              if_neg (by omega : ¬ (w : Int) = (d : Int)),
              if_neg (by omega : ¬ (d : Int) < (w : Int))]
            by_cases hret : content.length ≤ t * 3 / 2
            · rw [if_pos hret]
              exact ⟨.retLen, rfl, Or.inl rfl⟩
            · rw [if_neg hret]
              exact ih (t * 3 / 2) (by omega) (by omega) hr
        · push_neg at hlo
          have hweq : w = d := by
            have hge : d ≤ w := by
              by_contra hcon
              push_neg at hcon
              have := capM_mono w (d-1) (by omega) (by omega)
              omega
            have hle : w ≤ d := by
              by_contra hcon
              push_neg at hcon
              have := capM_mono d (w-1) (by omega) (by omega)
              omega
            omega
          subst hweq
          rw [loopGo_eq_normal hp, if_neg (by rintro ⟨h, _⟩; omega),
            if_pos rfl]
          exact ⟨.brk t, rfl, Or.inr ⟨t, rfl, ht1, htL⟩⟩
    · push_neg at hcap
      have hp := tableProbe_toolong t hcap _ hlen
      have hhi : capM d < t := by
        have := capM_mono d 40 hd40 (le_refl _)
        omega
      rw [reach_succ_high hhi] at hr
      rw [loopGo_eq_toolong hp]
      have hc40 : capM 40 = 2331 := rfl
      exact ih (t / 2) (by omega) (by omega) hr

/-- More fuel never changes a loop outcome already produced. -/
theorem loopGo_mono (probe : Probe) (content : List Nat) (desired : Int) :
    ∀ fuel fuel2 total r, fuel ≤ fuel2 →
      loopGo probe content desired fuel total = some r →
      loopGo probe content desired fuel2 total = some r := by
  intro fuel
  induction fuel with
  | zero => intro f2 t r _ h; simp [loopGo] at h
  | succ n ih =>
    intro f2 t r hle h
    obtain ⟨m, rfl⟩ : ∃ m, f2 = m + 1 := ⟨f2 - 1, by omega⟩
    rcases hp : probe (content.take t) with e | v
    · rcases e with _ | _
      · rw [loopGo_eq_toolong hp] at h ⊢
        exact ih m _ _ (by omega) h
      · rw [loopGo_eq_other hp] at h ⊢
        exact h
    · rcases v with w | x
      · rw [loopGo_eq_normal hp] at h ⊢
        by_cases h1 : w < desired ∧ content.length ≤ t
        · rw [if_pos h1] at h ⊢; exact h
        · rw [if_neg h1] at h ⊢
          by_cases h2 : w = desired
          · rw [if_pos h2] at h ⊢; exact h
          · rw [if_neg h2] at h ⊢
            by_cases h3 : content.length ≤
                (if desired < w then t / 2 else t * 3 / 2)
            · rw [if_pos h3] at h ⊢; exact h
            · rw [if_neg h3] at h ⊢
              exact ih m _ _ (by omega) h
      · rw [loopGo_eq_micro hp] at h ⊢
        exact h

/-- The search loop with the table probe terminates from every non-empty
content and valid version, with an exit that is an early return or an
in-range break. -/
theorem loop_terminates (content : List Nat) (d : Nat) (hd1 : 1 ≤ d)
    (hd40 : d ≤ 40) (hL : 1 ≤ content.length) :
    ∃ fuel r,
      loopGo tableProbe content (d : Int) fuel content.length = some r ∧
      (r = .retLen ∨ ∃ u, r = .brk u ∧ 1 ≤ u ∧ u ≤ content.length) := by
  by_cases hL1 : content.length = 1
  · have hlen : (content.take 1).length = 1 := by
      rw [List.length_take]; omega
    have hfv : findVer 1 1 40 = some 1 := by decide
    have hp : tableProbe (content.take 1) = .ok (.Normal (1 : Int)) := by
      simp only [tableProbe]
      rw [hlen, hfv]
      rfl
    by_cases hd : d = 1
    · subst hd
      refine ⟨0+1, .brk 1, ?_, Or.inr ⟨1, rfl, le_refl _, by omega⟩⟩
      rw [hL1]
      rw [loopGo_eq_normal hp, if_neg (by rintro ⟨h, _⟩; omega),
        if_pos (show (1 : Int) = ((1 : Nat) : Int) from rfl)]
    · have hd2 : 2 ≤ d := by omega
      refine ⟨0+1, .retLen, ?_, Or.inl rfl⟩
      rw [hL1]
      rw [loopGo_eq_normal hp, if_pos ⟨by
        have h2 : (2 : Int) ≤ (d : Int) := by exact_mod_cast hd2
        omega, by omega⟩]
  · have hL2 : 2 ≤ content.length := by omega
    have hlh : capM (d-1) + 1 ≤ capM d := by
      have := capM_strict (d-1) d (by omega) hd40
      omega
    have hc1 : capM 1 ≤ capM d := capM_mono 1 d hd1 hd40
    have hc14 : capM 1 = 14 := rfl
    have hswd : ∀ s, (capM d + 1) / 2 ≤ s →
        s ≤ (capM (d-1) + 1 - 1) * 3 / 2 / 2 →
        Reaches (capM (d-1) + 1) (capM d) s := by
      intro s hs1 hs2
      exact subwin_Reaches d hd1 hd40 s hs1 (by omega)
    obtain ⟨f, hf⟩ := Reaches_all (capM (d-1) + 1) (capM d) hlh (by omega)
      (by omega) hswd content.length hL2
    obtain ⟨r, hr, hok⟩ := loop_of_reach content d hd1 hd40 f
      content.length (by omega) (le_refl _) hf
    exact ⟨f, r, hr, hok⟩

/-- C1: for every non-empty content and desired version in [1,40], the
estimator with the table probe succeeds and returns a chunk size in
`(0, len]`. -/
theorem claim_C1_returns_in_range (content : List Nat) (d : Nat)
    (hd1 : 1 ≤ d) (hd40 : d ≤ 40) (hL : 1 ≤ content.length) :
    ∃ fuel c, estimate_chunk tableProbe content d fuel = some (.ok c) ∧
      0 < c ∧ c ≤ content.length := by
  obtain ⟨fuel, r, hr, hok⟩ := loop_terminates content d hd1 hd40 hL
  rcases hok with hret | ⟨u, hbrk, hu1, huL⟩
  · subst hret
    refine ⟨fuel, content.length, ?_, by omega, le_refl _⟩
    rw [estimate_chunk_of_loop (by omega) (by omega), hr]
  · subst hbrk
    refine ⟨fuel, content.length / (content.length / u + 1) + 1, ?_,
      Nat.succ_pos _, ?_⟩
    · rw [estimate_chunk_of_loop (by omega) (by omega), hr]
      simp [show ¬ u = 0 by omega]
    · have hq : 1 ≤ content.length / u :=
        (Nat.one_le_div_iff (by omega)).mpr huL
      have hdiv : content.length / (content.length / u + 1) ≤
          content.length / 2 :=
        Nat.div_le_div_left (by omega) (by omega)
      omega

/-- C1 witness: 30 bytes at desired version 5. -/
theorem claim_C1_returns_in_range_witness :
    ∃ fuel c, estimate_chunk tableProbe (List.replicate 30 120) 5 fuel =
      some (.ok c) ∧ 0 < c ∧ c ≤ (List.replicate 30 120).length :=
  claim_C1_returns_in_range (List.replicate 30 120) 5 (by omega) (by omega)
    (by simp)

/-- C2: for every non-empty content and desired version in [1,40], the
search loop of the estimator with the table probe terminates: some fuel
suffices, and any larger fuel returns the same result. -/
theorem claim_C2_terminates (content : List Nat) (d : Nat)
    (hd1 : 1 ≤ d) (hd40 : d ≤ 40) (hL : 1 ≤ content.length) :
    ∃ fuel r, estimate_chunk tableProbe content d fuel = some r ∧
      ∀ fuel2, fuel ≤ fuel2 →
        estimate_chunk tableProbe content d fuel2 = some r := by
  obtain ⟨fuel, r0, hr, hok⟩ := loop_terminates content d hd1 hd40 hL
  rcases hok with hret | ⟨u, hbrk, hu1, huL⟩
  · subst hret
    refine ⟨fuel, .ok content.length, ?_, ?_⟩
    · rw [estimate_chunk_of_loop (by omega) (by omega), hr]
    · intro f2 hf2
      rw [estimate_chunk_of_loop (by omega) (by omega),
        loopGo_mono tableProbe content (d : Int) fuel f2
          content.length _ hf2 hr]
  · subst hbrk
    refine ⟨fuel, .ok (content.length / (content.length / u + 1) + 1),
      ?_, ?_⟩
    · rw [estimate_chunk_of_loop (by omega) (by omega), hr]
      simp [show ¬ u = 0 by omega]
    · intro f2 hf2
      rw [estimate_chunk_of_loop (by omega) (by omega),
        loopGo_mono tableProbe content (d : Int) fuel f2
          content.length _ hf2 hr]
      simp [show ¬ u = 0 by omega]

/-- C2 witness: 50 bytes at desired version 3. -/
theorem claim_C2_terminates_witness :
    ∃ fuel r, estimate_chunk tableProbe (List.replicate 50 120) 3 fuel =
      some r ∧ ∀ fuel2, fuel ≤ fuel2 →
        estimate_chunk tableProbe (List.replicate 50 120) 3 fuel2 = some r :=
  claim_C2_terminates (List.replicate 50 120) 3 (by omega) (by omega)
    (by simp)

/-- C4 counterexample: 5 bytes (well below version 1's byte capacity of
14) at desired version 1 yield chunk size 3, not the full length 5: the
claim fails for `desired_version = 1`. -/
theorem claim_C4_counterexample :
    estimate_chunk tableProbe (List.replicate 5 120) 1 10 = some (.ok 3)
    ∧ (3 : Nat) ≠ 5 :=
  ⟨by decide, by decide⟩

/-- C4 amended: for content shorter than version 1's byte capacity and
any desired version in [2,40], the estimator returns the whole length in
one step; at desired version 1 the exact-match rebalance splits the
input instead (see C10). -/
theorem claim_C4_amended (content : List Nat) (d fuel : Nat)
    (h1 : 1 ≤ content.length) (h14 : content.length < capM 1)
    (hd2 : 2 ≤ d) (hd40 : d ≤ 40) :
    estimate_chunk tableProbe content d (fuel+1) =
      some (.ok content.length) := by
  have hc14 : capM 1 = 14 := rfl
  have hlen : (content.take content.length).length = content.length := by
    rw [List.length_take]; omega
  have hcap40 : capM 1 ≤ capM 40 := capM_mono 1 40 (by omega) (le_refl _)
  obtain ⟨w, hw1, hw40, hwle, hwgt, hpe⟩ :=
    tableProbe_normal content.length h1 (by omega)
  have hw_eq : w = 1 := by
    by_contra hne
    have := capM_mono 1 (w-1) (by omega) (by omega)
    omega
  subst hw_eq
  have hp := hpe _ hlen
  have hcast : ((1 : Nat) : Int) < (d : Int) := by
    exact_mod_cast (by omega : 1 < d)
  have hloop : loopGo tableProbe content (d : Int) (fuel+1)
      content.length = some .retLen := by
    rw [loopGo_eq_normal hp, if_pos ⟨hcast, le_refl _⟩]
  rw [estimate_chunk_of_loop (by omega) (by omega), hloop]

/-- C4 amended witness: 5 bytes at the CLI default version 16. -/
theorem claim_C4_amended_witness :
    estimate_chunk tableProbe (List.replicate 5 120) 16 1 =
      some (.ok (List.replicate 5 120).length) :=
  claim_C4_amended (List.replicate 5 120) 16 0 (by simp) (by decide)
    (by omega) (by omega)

end Multiqr
